import Mathlib

/-!
Shallow embedding of the event bus in `event/event.go` (package `event`):
a registry mapping string topics to ordered lists of callbacks, with
operations `Add`, `Delete`, `DeleteAll`, `Purge`, `Reset`, `Fire` and the
internal helpers `del` and `validateCallback`.

Go values passed as callbacks are modelled by `GoValue`: either the nil
interface value, or a concrete value carrying its reflect kind and an
identity (two function values are equal in the `reflect.Value` sense
exactly when they denote the same underlying callable, which the identity
field captures).  `reflect.TypeOf` on the nil interface returns a nil
`reflect.Type`, and calling `Kind()` on it panics; `validateCallback`
therefore has three outcomes: panic, the "not a func" error, or success.

The Go map `callbacks map[string][]reflect.Value` is modelled as an
association list built only through `setKey`/`eraseKey`, mirroring map
assignment and `delete`.  `Fire` is modelled as the trace of observable
events of one call: the read-lock acquisition at entry, one invocation
per callback in the topic slice (each completed before `wg.Wait` returns),
and the read-lock release performed by the deferred `RUnlock` at return.
-/

namespace GopherbotEvent

/-- The reflect kind of a non-nil Go value, as far as `validateCallback`
inspects it: a func, or anything else. -/
inductive GoKind
  | func
  | str
  | int
  | boolean
  | other
deriving DecidableEq, Repr

/-- A Go `interface{}` value handed to the bus: the nil interface, or a
concrete value with its reflect kind and callable identity. -/
inductive GoValue
  | nil
  | val (kind : GoKind) (id : Nat)
deriving DecidableEq, Repr

abbrev Topic := String

/-- The `callbacks map[string][]reflect.Value` field of `Bus`, as an
association list (keys kept unique by construction through the
operations). -/
abbrev Registry := List (Topic × List GoValue)

/-- Outcome of `validateCallback(f)` in Go: a panic (nil interface: `Kind()`
called on the nil `reflect.Type`), the `"Provided callback is not a func"`
error, or nil error. -/
inductive ValidationOutcome
  | panics
  | invalidErr
  | valid
deriving DecidableEq, Repr

/-- `validateCallback` from event.go:
`if reflect.TypeOf(f).Kind() != reflect.Func { return fmt.Errorf(...) }`.
For a nil interface, `reflect.TypeOf(f)` is nil and `Kind()` panics. -/
def validateCallback : GoValue → ValidationOutcome
  | .nil => .panics
  | .val k _ => if k = .func then .valid else .invalidErr

/-- The error message produced by `validateCallback`. -/
def errNotFunc : String := "Provided callback is not a func"

/-- Result of a bus operation that may panic (the panic propagates to the
caller, past the deferred mutex unlock). -/
inductive OpResult (α : Type)
  | panic
  | ok (a : α)
deriving DecidableEq, Repr

/-- Go map read `bus.callbacks[t]` together with its `ok` flag. -/
def lookup : Registry → Topic → Option (List GoValue)
  | [], _ => none
  | (k, v) :: rest, t => if k = t then some v else lookup rest t

/-- Go map assignment `bus.callbacks[t] = l`. -/
def setKey : Registry → Topic → List GoValue → Registry
  | [], t, l => [(t, l)]
  | (k, v) :: rest, t, l =>
      if k = t then (t, l) :: rest else (k, v) :: setKey rest t l

/-- Go map deletion `delete(bus.callbacks, t)`. -/
def eraseKey : Registry → Topic → Registry
  | [], _ => []
  | (k, v) :: rest, t => if k = t then rest else (k, v) :: eraseKey rest t

/-- The removal loop inside `del`:
`for i := 0; i < len(cbs); i++ { if cbs[i] == v { cbs = append(cbs[:i], cbs[i+1:]...); found = true; if !all { break } } }`.
After a removal at index `i` the loop increments `i`, so the element that
shifted into position `i` is never examined.  Returns the resulting slice
and the `found` flag. -/
def delScan (v : GoValue) (all : Bool) : List GoValue → List GoValue × Bool
  | [] => ([], false)
  | x :: xs =>
      if x = v then
        if all then
          match xs with
          | [] => ([], true)
          | y :: ys =>
              let r := delScan v all ys
              (y :: r.1, true)
        else (xs, true)
      else
        let r := delScan v all xs
        (x :: r.1, r.2)

/-- `del` from event.go: validate the callback, return `(false, nil)` when
the topic is absent, run the removal loop, and delete the topic key when
its slice has become empty.  The result is the new registry together with
the `(bool, error)` return values. -/
def del (reg : Registry) (t : Topic) (f : GoValue) (all : Bool) :
    OpResult (Registry × Bool × Option String) :=
  match validateCallback f with
  | .panics => .panic
  | .invalidErr => .ok (reg, false, some errNotFunc)
  | .valid =>
      match lookup reg t with
      | none => .ok (reg, false, none)
      | some cbs =>
          let r := delScan f all cbs
          let reg2 := if r.1 = [] then eraseKey reg t else setKey reg t r.1
          .ok (reg2, r.2, none)

/-- `Add` from event.go: validate, then append `reflect.ValueOf(f)` to the
topic slice, creating it when absent.  Returns the new registry and the
`error` return value. -/
def Add (reg : Registry) (t : Topic) (f : GoValue) :
    OpResult (Registry × Option String) :=
  match validateCallback f with
  | .panics => .panic
  | .invalidErr => .ok (reg, some errNotFunc)
  | .valid => .ok (setKey reg t ((lookup reg t).getD [] ++ [f]), none)

/-- `Delete` from event.go: `del` with `all = false`. -/
def Delete (reg : Registry) (t : Topic) (f : GoValue) :
    OpResult (Registry × Bool × Option String) :=
  del reg t f false

/-- `DeleteAll` from event.go: `del` with `all = true`. -/
def DeleteAll (reg : Registry) (t : Topic) (f : GoValue) :
    OpResult (Registry × Bool × Option String) :=
  del reg t f true

/-- The loop body of `Purge`: for each topic, call `del(topic, f, true)`,
accumulate `found`, and return early on error. -/
def purgeLoop (f : GoValue) : List Topic → Registry → Bool →
    OpResult (Registry × Bool × Option String)
  | [], reg, found => .ok (reg, found, none)
  | t :: ts, reg, found =>
      match del reg t f true with
      | .panic => .panic
      | .ok (reg2, d, err) =>
          let found2 := d || found
          match err with
          | some e => .ok (reg2, found2, some e)
          | none => purgeLoop f ts reg2 found2

/-- `Purge` from event.go: iterate `del(topic, f, true)` over all topics
present in the registry (each `del` touches only its own topic, so ranging
over the initial key set is faithful to the Go map range). -/
def Purge (reg : Registry) (f : GoValue) :
    OpResult (Registry × Bool × Option String) :=
  purgeLoop f (reg.map Prod.fst) reg false

/-- `Reset` from event.go: `bus.callbacks = make(map[string][]reflect.Value)`. -/
def Reset (_reg : Registry) : Registry := []

/-- `NewBus` from event.go: a bus with an empty callbacks map. -/
def NewBus : Registry := []

/-- An observable event of one `Fire` call: the `RLock()` at entry, one
completed callback invocation (callback value, argument values), or the
deferred `RUnlock()` at return. -/
inductive FireEvent
  | acquireRead
  | invoke (c : GoValue) (args : List GoValue)
  | releaseRead
deriving DecidableEq, Repr

/-- `Fire` from event.go, as the trace of one call: `RLock`; if the topic
is absent, return (deferred `RUnlock`); otherwise spawn one goroutine per
callback in `bus.callbacks[t]`, each calling the callback with the boxed
argument values, `wg.Wait()` for all of them, then return (deferred
`RUnlock`).  Every invocation completes between the lock acquisition and
its release; their mutual order is a linearisation. -/
def fireTrace (reg : Registry) (t : Topic) (args : List GoValue) :
    List FireEvent :=
  match lookup reg t with
  | none => [.acquireRead, .releaseRead]
  | some cbs =>
      .acquireRead :: (cbs.map fun c => FireEvent.invoke c args) ++ [.releaseRead]

/-- The completed callback invocations of a `Fire` trace, in trace order. -/
def invocations (tr : List FireEvent) : List (GoValue × List GoValue) :=
  tr.filterMap fun e =>
    match e with
    | .invoke c a => some (c, a)
    | _ => none

/-- The property claimed by the spec for `Fire`: the read lock is released
before any callback executes. -/
def releaseBeforeInvoke (tr : List FireEvent) : Prop :=
  ∀ i c a, tr.get? i = some (.invoke c a) →
    ∃ j, j < i ∧ tr.get? j = some FireEvent.releaseRead

/-- Buses reachable from `NewBus` through the public mutation API. -/
inductive Reachable : Registry → Prop
  | new : Reachable NewBus
  | add (r r2 : Registry) (t : Topic) (f : GoValue) (e : Option String) :
      Reachable r → Add r t f = .ok (r2, e) → Reachable r2
  | dele (r r2 : Registry) (t : Topic) (f : GoValue) (b : Bool)
      (e : Option String) :
      Reachable r → Delete r t f = .ok (r2, b, e) → Reachable r2
  | deleAll (r r2 : Registry) (t : Topic) (f : GoValue) (b : Bool)
      (e : Option String) :
      Reachable r → DeleteAll r t f = .ok (r2, b, e) → Reachable r2
  | purge (r r2 : Registry) (f : GoValue) (b : Bool) (e : Option String) :
      Reachable r → Purge r f = .ok (r2, b, e) → Reachable r2
  | reset (r : Registry) : Reachable r → Reachable (Reset r)

/-- Iterated `Add`: performs the given `(topic, callback)` registrations in
order, returning the final registry; `none` when some call panicked or
returned an error (so `some` certifies that every call succeeded with a nil
error). -/
def addAll : Registry → List (Topic × GoValue) → Option Registry
  | reg, [] => some reg
  | reg, p :: rest =>
      match Add reg p.1 p.2 with
      | .ok (reg2, none) => addAll reg2 rest
      | _ => none

/-- Sample callback values for concrete instances: two distinct funcs, a
non-func value, and an argument value. -/
def cbF : GoValue := .val .func 0

/-- A second, distinct func value. -/
def cbG : GoValue := .val .func 1

/-- A non-func, non-nil value (kind string). -/
def notFunc : GoValue := .val .str 0

/-- A sample argument value (kind int). -/
def argN : GoValue := .val .int 7

/-! ### Helper lemmas about the registry operations -/

/-- Non-emptiness of every topic slice in the registry. -/
def Wf (reg : Registry) : Prop := ∀ p ∈ reg, p.2 ≠ []

theorem lookup_setKey_self (reg : Registry) (t : Topic) (l : List GoValue) :
    lookup (setKey reg t l) t = some l := by
  induction reg with
  | nil => simp [setKey, lookup]
  | cons p rest ih =>
      obtain ⟨k, v⟩ := p
      by_cases hp : k = t
      · subst hp
        simp [setKey, lookup]
      · simp [setKey, lookup, hp, ih]

theorem lookup_setKey_ne (reg : Registry) (t : Topic) (l : List GoValue)
    (s : Topic) (h : s ≠ t) : lookup (setKey reg t l) s = lookup reg s := by
  have ht : t ≠ s := Ne.symm h
  induction reg with
  | nil => simp [setKey, lookup, ht]
  | cons p rest ih =>
      obtain ⟨k, v⟩ := p
      by_cases hp : k = t
      · subst hp
        simp [setKey, lookup, ht]
      · simp [setKey, lookup, hp, ih]

theorem setKey_lookup_eq (reg : Registry) (t : Topic) (l : List GoValue)
    (h : lookup reg t = some l) : setKey reg t l = reg := by
  induction reg with
  | nil => simp [lookup] at h
  | cons p rest ih =>
      obtain ⟨k, v⟩ := p
      by_cases hp : k = t
      · subst hp
        simp [lookup] at h
        simp [setKey, h]
      · simp only [lookup, if_neg hp] at h
        simp [setKey, hp, ih h]

theorem lookup_eq_none_of_not_mem_keys (reg : Registry) (t : Topic)
    (h : t ∉ reg.map Prod.fst) : lookup reg t = none := by
  induction reg with
  | nil => simp [lookup]
  | cons p rest ih =>
      obtain ⟨k, v⟩ := p
      simp only [List.map_cons, List.mem_cons, not_or] at h
      rw [lookup, if_neg (Ne.symm h.1)]
      exact ih h.2

theorem lookup_eraseKey_ne (reg : Registry) (t s : Topic) (h : s ≠ t) :
    lookup (eraseKey reg t) s = lookup reg s := by
  have ht : t ≠ s := Ne.symm h
  induction reg with
  | nil => simp [eraseKey]
  | cons p rest ih =>
      obtain ⟨k, v⟩ := p
      by_cases hp : k = t
      · subst hp
        simp [eraseKey, lookup, ht]
      · simp [eraseKey, lookup, hp, ih]

theorem lookup_eraseKey_self (reg : Registry) (t : Topic)
    (hnd : (reg.map Prod.fst).Nodup) : lookup (eraseKey reg t) t = none := by
  induction reg with
  | nil => simp [eraseKey, lookup]
  | cons p rest ih =>
      obtain ⟨k, v⟩ := p
      simp only [List.map_cons, List.nodup_cons] at hnd
      by_cases hp : k = t
      · subst hp
        rw [eraseKey, if_pos rfl]
        exact lookup_eq_none_of_not_mem_keys rest k hnd.1
      · rw [eraseKey, if_neg hp, lookup, if_neg hp]
        exact ih hnd.2

theorem lookup_mem (reg : Registry) (t : Topic) (l : List GoValue)
    (h : lookup reg t = some l) : (t, l) ∈ reg := by
  induction reg with
  | nil => simp [lookup] at h
  | cons p rest ih =>
      obtain ⟨k, v⟩ := p
      by_cases hp : k = t
      · subst hp
        simp [lookup] at h
        rw [h]
        exact List.mem_cons_self _ _
      · simp only [lookup, if_neg hp] at h
        exact List.mem_cons_of_mem _ (ih h)

theorem mem_setKey (reg : Registry) (t : Topic) (l : List GoValue)
    (p : Topic × List GoValue) (hp : p ∈ setKey reg t l) :
    p = (t, l) ∨ p ∈ reg := by
  induction reg with
  | nil =>
      simp [setKey] at hp
      exact Or.inl hp
  | cons q rest ih =>
      obtain ⟨k, v⟩ := q
      by_cases hq : k = t
      · rw [setKey, if_pos hq] at hp
        rcases List.mem_cons.mp hp with h1 | h1
        · exact Or.inl h1
        · exact Or.inr (List.mem_cons_of_mem _ h1)
      · rw [setKey, if_neg hq] at hp
        rcases List.mem_cons.mp hp with h1 | h1
        · exact Or.inr (h1 ▸ List.mem_cons_self _ _)
        · rcases ih h1 with h2 | h2
          · exact Or.inl h2
          · exact Or.inr (List.mem_cons_of_mem _ h2)

theorem mem_eraseKey (reg : Registry) (t : Topic)
    (p : Topic × List GoValue) (hp : p ∈ eraseKey reg t) : p ∈ reg := by
  induction reg with
  | nil =>
      simp [eraseKey] at hp
  | cons q rest ih =>
      obtain ⟨k, v⟩ := q
      by_cases hq : k = t
      · rw [eraseKey, if_pos hq] at hp
        exact List.mem_cons_of_mem _ hp
      · rw [eraseKey, if_neg hq] at hp
        rcases List.mem_cons.mp hp with h1 | h1
        · exact h1 ▸ List.mem_cons_self _ _
        · exact List.mem_cons_of_mem _ (ih h1)

theorem wf_setKey (reg : Registry) (t : Topic) (l : List GoValue)
    (h : Wf reg) (hl : l ≠ []) : Wf (setKey reg t l) := by
  intro p hp
  rcases mem_setKey reg t l p hp with h1 | h1
  · rw [h1]
    exact hl
  · exact h p h1

theorem wf_eraseKey (reg : Registry) (t : Topic) (h : Wf reg) :
    Wf (eraseKey reg t) := by
  intro p hp
  exact h p (mem_eraseKey reg t p hp)

theorem wf_del (reg : Registry) (t : Topic) (f : GoValue) (all : Bool)
    (reg2 : Registry) (b : Bool) (e : Option String) (h : Wf reg)
    (hd : del reg t f all = .ok (reg2, b, e)) : Wf reg2 := by
  unfold del at hd
  cases hv : validateCallback f <;> rw [hv] at hd
  · exact OpResult.noConfusion hd
  · simp only [OpResult.ok.injEq, Prod.mk.injEq] at hd
    exact hd.1 ▸ h
  · cases hl : lookup reg t with
    | none =>
        rw [hl] at hd
        simp only [OpResult.ok.injEq, Prod.mk.injEq] at hd
        exact hd.1 ▸ h
    | some cbs =>
        rw [hl] at hd
        simp only [OpResult.ok.injEq, Prod.mk.injEq] at hd
        by_cases hz : (delScan f all cbs).1 = []
        · rw [if_pos hz] at hd
          exact hd.1 ▸ wf_eraseKey reg t h
        · rw [if_neg hz] at hd
          exact hd.1 ▸ wf_setKey reg t _ h hz

theorem wf_add (reg : Registry) (t : Topic) (f : GoValue)
    (reg2 : Registry) (e : Option String) (h : Wf reg)
    (ha : Add reg t f = .ok (reg2, e)) : Wf reg2 := by
  unfold Add at ha
  cases hv : validateCallback f <;> rw [hv] at ha
  · exact OpResult.noConfusion ha
  · simp only [OpResult.ok.injEq, Prod.mk.injEq] at ha
    exact ha.1 ▸ h
  · simp only [OpResult.ok.injEq, Prod.mk.injEq] at ha
    exact ha.1 ▸ wf_setKey reg t _ h (by simp)

theorem wf_purgeLoop (f : GoValue) (ts : List Topic) :
    ∀ reg found reg2 b e, Wf reg →
      purgeLoop f ts reg found = .ok (reg2, b, e) → Wf reg2 := by
  induction ts with
  | nil =>
      intro reg found reg2 b e h hp
      simp only [purgeLoop, OpResult.ok.injEq, Prod.mk.injEq] at hp
      exact hp.1 ▸ h
  | cons t ts ih =>
      intro reg found reg2 b e h hp
      rw [purgeLoop] at hp
      cases hd : del reg t f true with
      | panic =>
          rw [hd] at hp
          exact OpResult.noConfusion hp
      | ok r =>
          obtain ⟨rg, d, err⟩ := r
          rw [hd] at hp
          have hwf2 : Wf rg := wf_del reg t f true rg d err h hd
          cases err with
          | some msg =>
              simp only [OpResult.ok.injEq, Prod.mk.injEq] at hp
              exact hp.1 ▸ hwf2
          | none => exact ih rg _ reg2 b e hwf2 hp

/-! ### Lemmas about the removal loop and the fire trace -/

theorem delScan_not_mem (v : GoValue) (all : Bool) (l : List GoValue)
    (h : v ∉ l) : delScan v all l = (l, false) := by
  induction l with
  | nil => rfl
  | cons x xs ih =>
      simp only [List.mem_cons, not_or] at h
      rw [delScan.eq_def]
      simp [Ne.symm h.1, ih h.2]

theorem delScan_first_of_mem (v : GoValue) (l : List GoValue) (h : v ∈ l) :
    delScan v false l = (l.erase v, true) := by
  induction l with
  | nil => simp at h
  | cons x xs ih =>
      by_cases hx : x = v
      · subst hx
        rw [delScan.eq_def]
        simp [List.erase_cons_head]
      · have hv : v ∈ xs := by
          rcases List.mem_cons.mp h with h1 | h1
          · exact absurd h1.symm hx
          · exact h1
        rw [delScan.eq_def]
        simp [hx, List.erase_cons_tail, ih hv]

theorem invocations_invoke_map (cs : List GoValue) (args : List GoValue) :
    invocations (FireEvent.acquireRead ::
      (cs.map fun c => FireEvent.invoke c args) ++ [FireEvent.releaseRead]) =
    cs.map fun c => (c, args) := by
  induction cs with
  | nil => rfl
  | cons c cs ih =>
      simpa [invocations, List.filterMap_cons] using ih

theorem count_pair_map (cs : List GoValue) (args : List GoValue)
    (c : GoValue) :
    (cs.map fun x => (x, args)).count (c, args) = cs.count c := by
  induction cs with
  | nil => rfl
  | cons x xs ih =>
      by_cases hcx : c = x
      · subst hcx
        simp [List.count_cons, ih]
      · simp [List.count_cons, ih, hcx, Prod.ext_iff]

theorem invocations_fireTrace (reg : Registry) (t : Topic)
    (args : List GoValue) (cbs : List GoValue) (h : lookup reg t = some cbs) :
    invocations (fireTrace reg t args) = cbs.map fun c => (c, args) := by
  rw [fireTrace, h]
  exact invocations_invoke_map cbs args

/-! ### The claims -/

/-- C1: for a bus whose registry maps topic `t` to the callback slice
`cbs` (length N), `Fire(t, args)` produces exactly one completed
invocation per entry of `cbs`, each receiving the identical argument list
`args` (so each registered callback occurrence is invoked exactly once,
none skipped, none doubled), and the return of `Fire` — marked by the
deferred read-lock release, the last trace event — happens only after all
invocations have completed. -/
theorem fire_delivers_to_each_callback_once (reg : Registry) (t : Topic)
    (cbs : List GoValue) (args : List GoValue)
    (h : lookup reg t = some cbs) :
    invocations (fireTrace reg t args) = (cbs.map fun c => (c, args)) ∧
    (∀ c : GoValue,
      (invocations (fireTrace reg t args)).count (c, args) = cbs.count c) ∧
    (∀ p ∈ invocations (fireTrace reg t args), p.2 = args) ∧
    (fireTrace reg t args).getLast? = some FireEvent.releaseRead := by
  have hinv := invocations_fireTrace reg t args cbs h
  refine ⟨hinv, ?_, ?_, ?_⟩
  · intro c
    rw [hinv]
    exact count_pair_map cbs args c
  · intro p hp
    rw [hinv] at hp
    obtain ⟨c, hc, rfl⟩ := List.mem_map.mp hp
    rfl
  · rw [fireTrace, h]
    show (FireEvent.acquireRead ::
      ((cbs.map fun c => FireEvent.invoke c args) ++
        [FireEvent.releaseRead])).getLast? = some FireEvent.releaseRead
    rw [← List.cons_append, List.getLast?_concat]

/-- Witness for C1 at a concrete bus: topic "t" holds two callbacks and
firing with one argument yields exactly their two invocations. -/
theorem fire_delivers_to_each_callback_once_witness :
    lookup [("t", [cbF, cbG])] "t" = some [cbF, cbG] ∧
    invocations (fireTrace [("t", [cbF, cbG])] "t" [argN]) =
      [(cbF, [argN]), (cbG, [argN])] :=
  ⟨rfl, ((fire_delivers_to_each_callback_once [("t", [cbF, cbG])] "t"
    [cbF, cbG] [argN] rfl).1).trans (by rfl)⟩

/-- C2 (code bug): `DeleteAll` on a topic holding two adjacent copies of
the same callback removes only the first copy.  The removal loop in `del`
increments its index after a removal, skipping the element that shifted
into the freed position, so the second adjacent occurrence survives — the
call returns `true` but the topic still contains the callback, contrary to
the claim and to `DeleteAll`'s own documentation ("removes all instances
of a callback from the provided topic"). -/
theorem deleteAll_adjacent_duplicate_survives :
    DeleteAll [("t", [cbF, cbF])] "t" cbF =
      .ok ([("t", [cbF])], true, none) := by
  rfl

/-- C3 (code bug): `Purge` inherits the skip-after-removal slip of `del`:
purging a callback that occupies two adjacent slots of topic "a" leaves
one occurrence behind, and a subsequent `Delete` on that topic returns
`true`, contrary to the claim that it must return `false`. -/
theorem purge_leaves_adjacent_duplicate :
    Purge [("a", [cbF, cbF])] cbF = .ok ([("a", [cbF])], true, none) ∧
    Delete [("a", [cbF])] "a" cbF = .ok ([], true, none) :=
  ⟨rfl, rfl⟩

/-- C4 is violated by the code: `Fire` takes the read lock with a deferred
`RUnlock`, which runs only when `Fire` returns — after `wg.Wait` — so the
lock is NOT released before the callbacks execute.  Concretely, for a bus
with one callback on topic "t" the trace is acquire, invoke, release: no
release precedes the invocation. -/
theorem fire_release_before_invoke_counterexample :
    ¬ releaseBeforeInvoke (fireTrace [("t", [cbF])] "t" []) := by
  intro h
  obtain ⟨j, hj, hev⟩ := h 1 cbF [] (by decide)
  have hj0 : j = 0 := Nat.lt_one_iff.mp hj
  rw [hj0] at hev
  exact absurd hev (by decide)

/-- C4 (amended): `Fire` acquires the registry lock in read (shared) mode
on entry and releases it only at return, after every callback invocation
has completed: each trace starts with the acquisition, ends with the
release, and everything in between is a callback invocation.  Handlers
therefore execute while the read lock is held, so concurrent `Fire` calls
may proceed in parallel but `Register`/`Delete` (which take the write
lock) are blocked for the duration of the handlers. -/
theorem fire_holds_read_lock_throughout (reg : Registry) (t : Topic)
    (args : List GoValue) :
    ∃ mid, fireTrace reg t args =
        FireEvent.acquireRead :: mid ++ [FireEvent.releaseRead] ∧
      ∀ e ∈ mid, ∃ c a, e = FireEvent.invoke c a := by
  unfold fireTrace
  cases lookup reg t with
  | none => exact ⟨[], rfl, by simp⟩
  | some cbs =>
      refine ⟨cbs.map fun c => FireEvent.invoke c args, rfl, ?_⟩
      intro e he
      obtain ⟨c, hc, rfl⟩ := List.mem_map.mp he
      exact ⟨c, args, rfl⟩

/-- C5 (code bug): `Purge` validates the callback only inside its loop
over existing topics, so on an empty registry `Purge` of a non-invocable
value returns `(false, nil)` — no `InvalidCallback` error is surfaced,
contrary to the claim (and to `Purge`'s documentation, which defers to
`Delete`'s: "An error will be returned when the provided callback is
invalid").  `Add`/`Delete`/`DeleteAll` do validate first. -/
theorem purge_invalid_on_empty_returns_no_error :
    Purge NewBus notFunc = .ok ([], false, none) := by
  rfl

/-- C9: `Reset` leaves the registry with no topics at all, any subsequent
`Fire` performs no invocation and returns at once (trace: acquire then
release, nothing else), and likewise `Fire` on any topic with no
registered callbacks performs no invocation. -/
theorem reset_empties_and_fire_is_noop (reg : Registry) (t : Topic)
    (args : List GoValue) :
    (∀ s, lookup (Reset reg) s = none) ∧
    invocations (fireTrace (Reset reg) t args) = [] ∧
    fireTrace (Reset reg) t args =
      [FireEvent.acquireRead, FireEvent.releaseRead] ∧
    (lookup reg t = none → invocations (fireTrace reg t args) = []) := by
  refine ⟨fun s => rfl, rfl, rfl, fun h => ?_⟩
  rw [fireTrace, h]
  rfl

/-- Witness for C9: firing the absent topic "u" on a populated bus invokes
nothing. -/
theorem reset_empties_and_fire_is_noop_witness :
    lookup [("t", [cbF])] "u" = none ∧
    invocations (fireTrace [("t", [cbF])] "u" []) = [] :=
  ⟨rfl, (reset_empties_and_fire_is_noop [("t", [cbF])] "u" []).2.2.2 rfl⟩

/-- C10 fails as stated for `Purge`: on an EMPTY registry, `Purge(nil)`
never reaches the validation (it runs inside the loop over topics), so it
returns `(false, nil)` instead of panicking. -/
theorem purge_nil_on_empty_does_not_panic :
    Purge NewBus GoValue.nil = .ok ([], false, none) := by
  rfl

/-- C10 (amended): passing the nil interface as the callback makes `Add`,
`Delete` and `DeleteAll` always panic inside `validateCallback`
(`Kind()` is called on the nil `reflect.Type` returned by
`reflect.TypeOf(nil)`), and makes `Purge` panic exactly when the registry
is non-empty (on an empty registry the validation is never reached and
`Purge` returns `(false, nil)`); the validation's error branch is reached
precisely for the non-nil, non-function values. -/
theorem nil_callback_panics (reg : Registry) (t : Topic) :
    Add reg t GoValue.nil = .panic ∧
    Delete reg t GoValue.nil = .panic ∧
    DeleteAll reg t GoValue.nil = .panic ∧
    (reg ≠ [] → Purge reg GoValue.nil = .panic) ∧
    (∀ f, validateCallback f = .invalidErr ↔
      ∃ k i, f = GoValue.val k i ∧ k ≠ GoKind.func) := by
  refine ⟨rfl, rfl, rfl, ?_, ?_⟩
  · intro hne
    cases reg with
    | nil => exact absurd rfl hne
    | cons p rest => rfl
  · intro f
    constructor
    · intro hf
      cases f with
      | nil => exact absurd hf (by decide)
      | val k i =>
          refine ⟨k, i, rfl, ?_⟩
          intro hk
          rw [hk] at hf
          simp [validateCallback] at hf
    · rintro ⟨k, i, rfl, hk⟩
      simp [validateCallback, hk]

/-- Witness for the amended C10 on a non-empty one-topic bus. -/
theorem nil_callback_panics_witness :
    ([("t", [cbF])] : Registry) ≠ [] ∧
    Purge [("t", [cbF])] GoValue.nil = OpResult.panic :=
  ⟨by decide, (nil_callback_panics [("t", [cbF])] "t").2.2.2.1 (by decide)⟩

/-- C6: with an invocable callback, unique topic keys and non-empty topic
slices (both hold for every reachable bus), `Delete(t, f)` removes exactly
the first occurrence of `f` from `t`'s slice and returns `(true, nil)`
when an occurrence exists (the topic key itself disappearing when the
slice becomes empty), while preserving every other topic; and when `t` is
absent or holds no occurrence of `f`, it returns `(false, nil)` with the
registry unchanged. -/
theorem delete_removes_first_occurrence (reg : Registry) (t : Topic)
    (f : GoValue) (hf : validateCallback f = .valid)
    (hnd : (reg.map Prod.fst).Nodup) (hwf : ∀ p ∈ reg, p.2 ≠ []) :
    (∀ cbs, lookup reg t = some cbs → f ∈ cbs →
      ∃ reg2, Delete reg t f = .ok (reg2, true, none) ∧
        lookup reg2 t =
          (if cbs.erase f = [] then none else some (cbs.erase f)) ∧
        ∀ s, s ≠ t → lookup reg2 s = lookup reg s) ∧
    ((∀ cbs, lookup reg t = some cbs → f ∉ cbs) →
      Delete reg t f = .ok (reg, false, none)) := by
  constructor
  · intro cbs hl hmem
    have hscan := delScan_first_of_mem f cbs hmem
    have hD : del reg t f false =
        .ok (if cbs.erase f = [] then eraseKey reg t
             else setKey reg t (cbs.erase f), true, none) := by
      unfold del
      rw [hf, hl]
      show OpResult.ok
          (if (delScan f false cbs).1 = [] then eraseKey reg t
           else setKey reg t (delScan f false cbs).1,
           (delScan f false cbs).2, none) =
        OpResult.ok (if cbs.erase f = [] then eraseKey reg t
           else setKey reg t (cbs.erase f), true, none)
      rw [hscan]
    refine ⟨_, hD, ?_, ?_⟩
    · by_cases hz : cbs.erase f = []
      · rw [if_pos hz, if_pos hz]
        exact lookup_eraseKey_self reg t hnd
      · rw [if_neg hz, if_neg hz]
        exact lookup_setKey_self reg t _
    · intro s hs
      by_cases hz : cbs.erase f = []
      · rw [if_pos hz]
        exact lookup_eraseKey_ne reg t s hs
      · rw [if_neg hz]
        exact lookup_setKey_ne reg t _ s hs
  · intro hno
    cases hl : lookup reg t with
    | none =>
        unfold Delete del
        rw [hf, hl]
    | some cbs =>
        have hmem : f ∉ cbs := hno cbs hl
        have hscan := delScan_not_mem f false cbs hmem
        have hcbs : cbs ≠ [] := hwf (t, cbs) (lookup_mem reg t cbs hl)
        have hD : del reg t f false =
            .ok (if cbs = [] then eraseKey reg t else setKey reg t cbs,
                 false, none) := by
          unfold del
          rw [hf, hl]
          show OpResult.ok
              (if (delScan f false cbs).1 = [] then eraseKey reg t
               else setKey reg t (delScan f false cbs).1,
               (delScan f false cbs).2, none) =
            OpResult.ok (if cbs = [] then eraseKey reg t
               else setKey reg t cbs, false, none)
          rw [hscan]
        unfold Delete
        rw [hD, if_neg hcbs, setKey_lookup_eq reg t cbs hl]

/-- Witness for C6: deleting `cbF` from a topic holding `cbF` then `cbG`
removes exactly the first entry. -/
theorem delete_removes_first_occurrence_witness :
    validateCallback cbF = ValidationOutcome.valid ∧
    ∃ reg2, Delete [("t", [cbF, cbG])] "t" cbF = .ok (reg2, true, none) ∧
      lookup reg2 "t" =
        (if [cbF, cbG].erase cbF = [] then none
         else some ([cbF, cbG].erase cbF)) ∧
      ∀ s, s ≠ "t" → lookup reg2 s = lookup [("t", [cbF, cbG])] s :=
  ⟨rfl, (delete_removes_first_occurrence [("t", [cbF, cbG])] "t" cbF rfl
    (by decide) (by decide)).1 [cbF, cbG] rfl (by decide)⟩

/-- C7: every bus reachable from `NewBus` through the mutation API maps
each present topic key to a non-empty callback slice: `Add` only ever
stores a slice extended by one element, and `del` deletes the topic key
whenever the slice it is about to store is empty. -/
theorem reachable_topics_nonempty (r : Registry) (h : Reachable r) :
    ∀ p ∈ r, p.2 ≠ [] := by
  induction h with
  | new =>
      intro p hp
      simp [NewBus] at hp
  | add rr r2 tt ff ee hr ha ih => exact wf_add rr tt ff r2 ee ih ha
  | dele rr r2 tt ff bb ee hr hd ih => exact wf_del rr tt ff false r2 bb ee ih hd
  | deleAll rr r2 tt ff bb ee hr hd ih =>
      exact wf_del rr tt ff true r2 bb ee ih hd
  | purge rr r2 ff bb ee hr hp ih =>
      exact wf_purgeLoop ff (rr.map Prod.fst) rr false r2 bb ee ih hp
  | reset rr hr ih =>
      intro p hp
      simp [Reset] at hp

/-- Witness for C7 at the bus obtained from `NewBus` by one `Add`: its
single entry has a non-empty slice. -/
theorem reachable_topics_nonempty_witness :
    ("a", [cbF]).2 ≠ ([] : List GoValue) :=
  reachable_topics_nonempty [("a", [cbF])]
    (Reachable.add NewBus [("a", [cbF])] "a" cbF none Reachable.new rfl)
    ("a", [cbF]) (List.mem_cons_self _ _)

theorem addAll_cons (reg : Registry) (t0 : Topic) (f0 : GoValue)
    (rest : List (Topic × GoValue)) :
    addAll reg ((t0, f0) :: rest) =
      (match Add reg t0 f0 with
       | .ok (r2, none) => addAll r2 rest
       | _ => none) := rfl

theorem addAll_lookup (ps : List (Topic × GoValue))
    (h : ∀ p ∈ ps, validateCallback p.2 = .valid) :
    ∀ reg, ∃ reg2, addAll reg ps = some reg2 ∧
      ∀ t, lookup reg2 t =
        (if lookup reg t = none ∧ ps.filter (fun p => p.1 == t) = []
         then none
         else some ((lookup reg t).getD [] ++
           (ps.filter (fun p => p.1 == t)).map Prod.snd)) := by
  induction ps with
  | nil =>
      intro reg
      refine ⟨reg, rfl, ?_⟩
      intro t
      cases hl : lookup reg t with
      | none => simp [hl]
      | some l => simp [hl]
  | cons p rest ih =>
      obtain ⟨t0, f0⟩ := p
      intro reg
      have hf0 : validateCallback f0 = .valid :=
        h (t0, f0) (List.mem_cons_self _ _)
      have hrest : ∀ q ∈ rest, validateCallback q.2 = .valid :=
        fun q hq => h q (List.mem_cons_of_mem _ hq)
      have hAdd : Add reg t0 f0 =
          .ok (setKey reg t0 ((lookup reg t0).getD [] ++ [f0]), none) := by
        unfold Add
        rw [hf0]
      obtain ⟨reg2, haddAll, hlook⟩ :=
        ih hrest (setKey reg t0 ((lookup reg t0).getD [] ++ [f0]))
      refine ⟨reg2, ?_, ?_⟩
      · rw [addAll_cons, hAdd]
        exact haddAll
      · intro t
        rw [hlook t]
        by_cases ht : t0 = t
        · subst ht
          rw [lookup_setKey_self]
          simp [List.filter_cons, List.append_assoc]
        · have hcons : List.filter (fun p => p.1 == t) ((t0, f0) :: rest) =
              List.filter (fun p => p.1 == t) rest := by
            rw [List.filter_cons]
            simp [ht]
          rw [lookup_setKey_ne reg t0 _ t (Ne.symm ht), hcons]

/-- C8: starting from the empty bus, performing any list of registrations
with invocable callbacks succeeds throughout (every `Add` returns a nil
error), and afterwards each topic's slice is exactly the callbacks that
were added to that topic, in insertion order, duplicates each occupying
their own slot (and a topic key exists precisely when something was added
to it). -/
theorem add_appends_exactly (ps : List (Topic × GoValue))
    (h : ∀ p ∈ ps, validateCallback p.2 = .valid) :
    ∃ reg2, addAll NewBus ps = some reg2 ∧
      ∀ t, lookup reg2 t =
        (if ps.filter (fun p => p.1 == t) = [] then none
         else some ((ps.filter (fun p => p.1 == t)).map Prod.snd)) := by
  obtain ⟨reg2, ha, hl⟩ := addAll_lookup ps h NewBus
  refine ⟨reg2, ha, ?_⟩
  intro t
  rw [hl t]
  simp only [NewBus, lookup, Option.getD_none, List.nil_append, true_and]

/-- Witness for C8: adding `cbF` twice to "a" and `cbG` once to "b". -/
theorem add_appends_exactly_witness :
    (∀ p ∈ [("a", cbF), ("a", cbF), ("b", cbG)],
      validateCallback p.2 = ValidationOutcome.valid) ∧
    ∃ reg2, addAll NewBus [("a", cbF), ("a", cbF), ("b", cbG)] = some reg2 ∧
      ∀ t, lookup reg2 t =
        (if [("a", cbF), ("a", cbF), ("b", cbG)].filter
            (fun p => p.1 == t) = [] then none
         else some (([("a", cbF), ("a", cbF), ("b", cbG)].filter
            (fun p => p.1 == t)).map Prod.snd)) :=
  ⟨by decide, add_appends_exactly [("a", cbF), ("a", cbF), ("b", cbG)]
    (by decide)⟩

end GopherbotEvent
